import Mathlib

/-
Verification of the Sequencium game-logic engine (src/src/main.rs).

The Rust source is a Bevy application; the game logic lives in the systems
`setup_players`, `setup_board` (adjacency construction and initial diagonal
seeding via `get_init_block_data`), `unselected`, `largest_neighbor`,
`selection_committed`, `turn_end` and `next_player_has_moves`.

Shallow embedding conventions:
- A Bevy block entity with its `GridValue` and optional `OwnedBy` components
  becomes a `Block` record `{cell, value, owner}`; the board is the list of
  all 36 blocks in spawn (row-major) order, so ECS queries become list
  filters over it.
- The two player entities spawned by `setup_players` become `Player.p1` and
  `Player.p2` (in `player_list` order); the `CurrentPlayer` marker component
  becomes the `currentPlayer` field and the per-player `Score` components
  become the `score` function.
- The `Selected` marker together with the pending text written by the
  `unselected` system (the text holds `largest_neighbor_value + 1`, and is
  what `selection_committed` later parses back) becomes the field
  `selected : Option ((Nat × Nat) × Nat)` carrying the cell and that value.
- `NextState<TurnState>` becomes the `phase` field; the win text spawned by
  `turn_end` when no unowned block remains becomes the `winner` field.
- External input (cursor collision with an unowned block, mouse click)
  enters the `unselected` step as explicit parameters.
-/

def GRID_LENGTH : Nat := 6

inductive Player where
  | p1
  | p2
deriving DecidableEq, Repr

def otherPlayer : Player → Player
  | Player.p1 => Player.p2
  | Player.p2 => Player.p1

inductive TurnState where
  | Unselected
  | Committed
  | TurnEnd
deriving DecidableEq, Repr

structure Block where
  cell : Nat × Nat
  value : Option Nat
  owner : Option Player
deriving DecidableEq, Repr

/-- The nine `(dx, dy)` offsets produced by `iproduct!(-1..=1, -1..=1)` in
`setup_board`, in iteration order. -/
def deltaList : List (Int × Int) :=
  [(-1, -1), (-1, 0), (-1, 1), (0, -1), (0, 0), (0, 1), (1, -1), (1, 0), (1, 1)]

/-- Neighbor coordinates of cell `(x, y)` as built by the adjacency loop in
`setup_board`: offsets applied with `usize::try_from` (negative coordinates
rejected), clipped to the grid, the cell itself excluded. -/
def neighborCoords (x y : Nat) : List (Nat × Nat) :=
  deltaList.filterMap fun d =>
    let nx : Int := (x : Int) + d.1
    let ny : Int := (y : Int) + d.2
    if 0 ≤ nx ∧ 0 ≤ ny then
      let a := nx.toNat
      let b := ny.toNat
      if a < GRID_LENGTH ∧ b < GRID_LENGTH ∧ (a ≠ x ∨ b ≠ y) then some (a, b)
      else none
    else none

/-- Initial value and owner of the block at `(i, j)`, from
`get_init_block_data`: diagonal cells in the first half get value `i + 1`
and player 1, the rest of the diagonal gets value `GRID_LENGTH - i` and
player 2; off-diagonal cells are unvalued and unowned
(`Entity::PLACEHOLDER`). -/
def get_init_block_data (i j : Nat) : Option Nat × Option Player :=
  if i = j then
    let half_grid_length := GRID_LENGTH / 2
    if i < half_grid_length then (some (i + 1), some Player.p1)
    else (some (GRID_LENGTH - i), some Player.p2)
  else (none, none)

/-- All cell coordinates in the row-major order in which `setup_board`
spawns the blocks. -/
def allCoords : List (Nat × Nat) :=
  (List.range GRID_LENGTH).flatMap fun i =>
    (List.range GRID_LENGTH).map fun j => (i, j)

/-- The board as spawned by `setup_board`. -/
def initBoard : List Block :=
  allCoords.map fun c =>
    let d := get_init_block_data c.1 c.2
    { cell := c, value := d.1, owner := d.2 }

structure GameState where
  board : List Block
  score : Player → Nat
  currentPlayer : Player
  phase : TurnState
  selected : Option ((Nat × Nat) × Nat)
  winner : Option (Player × Nat)

/-- Blocks matched by `owned_block_query` (those carrying `OwnedBy`). -/
def ownedBlocks (board : List Block) : List Block :=
  board.filter fun b => b.owner.isSome

/-- Blocks matched by `unowned_block_query` (those `Without<OwnedBy>`). -/
def unownedBlocks (board : List Block) : List Block :=
  board.filter fun b => b.owner.isNone

/-- The block at a given cell. -/
def blockAt (board : List Block) (c : Nat × Nat) : Option Block :=
  board.find? fun b => b.cell = c

/-- Loop body of `largest_neighbor`: one owned block is examined; if it is
adjacent to `c`, owned by the current player, and carries a value, the
running maximum is updated. -/
def largest_neighbor_step (c : Nat × Nat) (p : Player) (acc : Option Nat) (b : Block) :
    Option Nat :=
  match b.owner with
  | some neighbor_owner =>
    if b.cell ∈ neighborCoords c.1 c.2 ∧ neighbor_owner = p then
      match b.value with
      | some v =>
        match acc with
        | some largest_v => some (max v largest_v)
        | none => some v
      | none => acc
    else acc
  | none => acc

/-- The `largest_neighbor` function: fold over the owned blocks, keeping the
maximum `GridValue` among those that are adjacent to `c` and owned by the
current player. -/
def largest_neighbor (board : List Block) (c : Nat × Nat) (p : Player) : Option Nat :=
  (ownedBlocks board).foldl (largest_neighbor_step c p) none

/-- The `unselected` system, for one frame in which the cursor collides with
the unowned block at `collided` (or none) and `click` tells whether the left
mouse button was just pressed. Only an unowned block can collide (the
collision loop ranges over `unowned_block_query`). If the collided block is
eligible (`largest_neighbor` returns `Some`), its text is set to the largest
value plus one, and a click marks it `Selected` and moves to `Committed`;
otherwise nothing changes. -/
def unselected (s : GameState) (collided : Option (Nat × Nat)) (click : Bool) : GameState :=
  match collided with
  | none => s
  | some c =>
    if (unownedBlocks s.board).any (fun b => b.cell = c) then
      match largest_neighbor s.board c s.currentPlayer with
      | some largest_neighbor_value =>
        if click then
          { s with
            selected := some (c, largest_neighbor_value + 1)
            phase := TurnState.Committed }
        else s
      | none => s
    else s

/-- Write `value` into the block at cell `c` and mark it owned by `p`, as
`selection_committed` does through `grid_value.0 = Some(...)` and
`insert(OwnedBy(current_player))`. -/
def setBlock (board : List Block) (c : Nat × Nat) (v : Nat) (p : Player) : List Block :=
  board.map fun b =>
    if b.cell = c then { b with value := some v, owner := some p } else b

/-- The `selection_committed` system: parse the pending value back from the
selected block's text, store it in the block's `GridValue`, transfer
ownership to the current player, raise that player's score to the maximum of
its old score and the new value, clear the selection, and move to
`TurnEnd`. -/
def selection_committed (s : GameState) : GameState :=
  match s.selected with
  | none => s
  | some cv =>
    { s with
      board := setBlock s.board cv.1 cv.2 s.currentPlayer
      score := fun p =>
        if p = s.currentPlayer then max (s.score p) cv.2 else s.score p
      selected := none
      phase := TurnState.TurnEnd }

/-- The player entities in `player_list` order (`setup_players` spawn
order). -/
def playerList : List Player := [Player.p1, Player.p2]

/-- Rust `Iterator::max_by_key` over `(player, score)` pairs: returns the
element with the maximum key, the last one in case of ties. -/
def max_by_key_last (l : List (Player × Nat)) : Option (Player × Nat) :=
  l.foldl
    (fun acc x =>
      match acc with
      | none => some x
      | some m => if m.2 ≤ x.2 then some x else some m)
    none

/-- The `next_player_has_moves` helper: the next player owns at least one
block with an unowned neighbor. -/
def next_player_has_moves (board : List Block) (next_player : Player) : Bool :=
  (ownedBlocks board).any fun b =>
    decide (b.owner = some next_player) &&
      ((neighborCoords b.cell.1 b.cell.2).any fun n =>
        (unownedBlocks board).any fun ub => decide (ub.cell = n))

/-- The `turn_end` system: if no unowned block remains, declare the winner
(`max_by_key` over the player scores, iterated in `player_list` order) and
stay in `TurnEnd` (the source sets no next state here); otherwise pass the
turn to the other player when it has moves, keep it otherwise, and return to
`Unselected` either way. -/
def turn_end (s : GameState) : GameState :=
  let next_player := otherPlayer s.currentPlayer
  if (unownedBlocks s.board).length = 0 then
    { s with winner := max_by_key_last (playerList.map fun p => (p, s.score p)) }
  else if next_player_has_moves s.board next_player then
    { s with currentPlayer := next_player, phase := TurnState.Unselected }
  else
    { s with phase := TurnState.Unselected }

/-- The state after the startup systems `setup_players` (scores
`GRID_LENGTH / 2`, `CurrentPlayer` on `player_list[1]`) and `setup_board`
have run; `TurnState` starts at its default `Unselected`. -/
def initState : GameState :=
  { board := initBoard
    score := fun _ => GRID_LENGTH / 2
    currentPlayer := Player.p2
    phase := TurnState.Unselected
    selected := none
    winner := none }

/-- One engine step: each `TurnState` schedules exactly one system, and the
`unselected` system additionally consumes external input. -/
inductive Step : GameState → GameState → Prop where
  | unsel (s : GameState) (collided : Option (Nat × Nat)) (click : Bool) :
      s.phase = TurnState.Unselected → Step s (unselected s collided click)
  | commit (s : GameState) :
      s.phase = TurnState.Committed → Step s (selection_committed s)
  | turnEnd (s : GameState) :
      s.phase = TurnState.TurnEnd → Step s (turn_end s)

/-- States reachable from the initial configuration. -/
inductive Reachable : GameState → Prop where
  | init : Reachable initState
  | step {s t : GameState} : Reachable s → Step s t → Reachable t

/-- Maximum of a list of naturals (0 for the empty list); used to state the
score invariant. -/
def maxValue (l : List Nat) : Nat := l.foldl max 0

/-- Values of the blocks owned by `p`, in board order. -/
def ownedValues (board : List Block) (p : Player) : List Nat :=
  board.filterMap fun b => if b.owner = some p then b.value else none

/-- Stated from the spec's words for the legality oracle: the values of the
neighbors of `c` that are owned by `p`. -/
def specOwnedNeighborValues (board : List Block) (c : Nat × Nat) (p : Player) : List Nat :=
  board.filterMap fun b =>
    if b.owner = some p ∧ b.cell ∈ neighborCoords c.1 c.2 then b.value else none

/-- Structural invariant maintained by the engine: block cells are distinct,
and a pending selection always points at an unowned block of the board. -/
def GoodState (s : GameState) : Prop :=
  (s.board.map Block.cell).Nodup ∧
  (∀ c v, s.selected = some (c, v) →
    ∃ b ∈ s.board, b.cell = c ∧ b.owner = none) ∧
  (∀ p, s.score p = maxValue (ownedValues s.board p))

/-- Accumulator update on one value, the shape taken by the running maximum
of `largest_neighbor` once the skipped blocks are removed; used to relate
the fold to the list of owned neighbor values. -/
def optStep (acc : Option Nat) (v : Nat) : Option Nat :=
  match acc with
  | some largest_v => some (max v largest_v)
  | none => some v

/-- A finished position used to exercise `turn_end`: every block is owned,
player 1 leads 2 to 1, and the engine is in `TurnEnd`. -/
def fullState : GameState :=
  { board := [ { cell := (0, 0), value := some 2, owner := some Player.p1 },
               { cell := (0, 1), value := some 1, owner := some Player.p2 } ]
    score := fun p => match p with | Player.p1 => 2 | Player.p2 => 1
    currentPlayer := Player.p1
    phase := TurnState.TurnEnd
    selected := none
    winner := none }

/-- C10: at game start the `CurrentPlayer` marker is inserted on
`player_list[1]`, so player 2 makes the first move. -/
theorem initial_current_player : initState.currentPlayer = Player.p2 := rfl

/-- C5: in the initial configuration exactly the main-diagonal cells are
pre-claimed, player 1 owning `(0,0)=1, (1,1)=2, (2,2)=3` and player 2 owning
`(3,3)=3, (4,4)=2, (5,5)=1`; every off-diagonal cell starts with no owner
and no value; both initial scores are `GRID_LENGTH / 2 = 3`. -/
theorem initial_diagonal_seeding :
    blockAt initBoard (0, 0) = some { cell := (0, 0), value := some 1, owner := some Player.p1 } ∧
    blockAt initBoard (1, 1) = some { cell := (1, 1), value := some 2, owner := some Player.p1 } ∧
    blockAt initBoard (2, 2) = some { cell := (2, 2), value := some 3, owner := some Player.p1 } ∧
    blockAt initBoard (3, 3) = some { cell := (3, 3), value := some 3, owner := some Player.p2 } ∧
    blockAt initBoard (4, 4) = some { cell := (4, 4), value := some 2, owner := some Player.p2 } ∧
    blockAt initBoard (5, 5) = some { cell := (5, 5), value := some 1, owner := some Player.p2 } ∧
    (∀ c ∈ allCoords, c.1 ≠ c.2 →
      blockAt initBoard c = some { cell := c, value := none, owner := none }) ∧
    initState.score Player.p1 = 3 ∧ initState.score Player.p2 = 3 := by
  decide

/-- C9: the adjacency relation built by `setup_board` is symmetric on the
grid. -/
theorem mem_allCoords (x y : Nat) :
    (x, y) ∈ allCoords ↔ x < GRID_LENGTH ∧ y < GRID_LENGTH := by
  simp [allCoords, List.mem_flatMap, List.mem_range, List.mem_map, GRID_LENGTH]

theorem neighbor_symm (a b : Nat × Nat)
    (ha1 : a.1 < GRID_LENGTH) (ha2 : a.2 < GRID_LENGTH)
    (hb1 : b.1 < GRID_LENGTH) (hb2 : b.2 < GRID_LENGTH) :
    b ∈ neighborCoords a.1 a.2 ↔ a ∈ neighborCoords b.1 b.2 := by
  have h : ∀ p ∈ allCoords, ∀ q ∈ allCoords,
      (q ∈ neighborCoords p.1 p.2 ↔ p ∈ neighborCoords q.1 q.2) := by decide
  exact h a ((mem_allCoords a.1 a.2).2 ⟨ha1, ha2⟩)
    b ((mem_allCoords b.1 b.2).2 ⟨hb1, hb2⟩)

theorem mem_ownedBlocks (board : List Block) (b : Block) :
    b ∈ ownedBlocks board ↔ b ∈ board ∧ b.owner.isSome := by
  simp [ownedBlocks, List.mem_filter]

theorem mem_unownedBlocks (board : List Block) (b : Block) :
    b ∈ unownedBlocks board ↔ b ∈ board ∧ b.owner = none := by
  simp [unownedBlocks, List.mem_filter, Option.isNone_iff_eq_none]

theorem unselected_cases (s : GameState) (collided : Option (Nat × Nat)) (click : Bool) :
    unselected s collided click = s ∨
    ∃ c v, collided = some c ∧ click = true ∧
      ((unownedBlocks s.board).any fun b => decide (b.cell = c)) = true ∧
      largest_neighbor s.board c s.currentPlayer = some v ∧
      unselected s collided click =
        { s with selected := some (c, v + 1), phase := TurnState.Committed } := by
  cases collided with
  | none => exact Or.inl rfl
  | some c =>
    by_cases hg : ((unownedBlocks s.board).any fun b => decide (b.cell = c)) = true
    · cases hl : largest_neighbor s.board c s.currentPlayer with
      | none => exact Or.inl (by simp [unselected, hg, hl])
      | some v =>
        cases click with
        | false => exact Or.inl (by simp [unselected, hg, hl])
        | true => exact Or.inr ⟨c, v, rfl, rfl, hg, hl, by simp [unselected, hg, hl]⟩
    · exact Or.inl (by simp [unselected, hg])

theorem unselected_preserves (s : GameState) (collided : Option (Nat × Nat)) (click : Bool) :
    (unselected s collided click).board = s.board ∧
    (unselected s collided click).score = s.score ∧
    (unselected s collided click).currentPlayer = s.currentPlayer := by
  rcases unselected_cases s collided click with h | ⟨c, v, _, _, _, _, h⟩ <;>
    rw [h] <;> exact ⟨rfl, rfl, rfl⟩

theorem turn_end_preserves (s : GameState) :
    (turn_end s).board = s.board ∧ (turn_end s).score = s.score ∧
    (turn_end s).selected = s.selected := by
  unfold turn_end
  by_cases h0 : (unownedBlocks s.board).length = 0
  · simp [h0]
  · by_cases h1 :
      next_player_has_moves s.board (otherPlayer s.currentPlayer) = true
    · simp [h0, h1]
    · simp [h0, h1]

theorem blockAt_setBlock (board : List Block) (c0 c : Nat × Nat) (v : Nat) (p : Player) :
    blockAt (setBlock board c0 v p) c =
      if c = c0 then
        (blockAt board c).map fun b => { b with value := some v, owner := some p }
      else blockAt board c := by
  induction board with
  | nil => by_cases h : c = c0 <;> simp [blockAt, setBlock, h]
  | cons hd tl ih =>
    have hcons : setBlock (hd :: tl) c0 v p =
        (if hd.cell = c0 then { hd with value := some v, owner := some p } else hd) ::
          setBlock tl c0 v p := rfl
    by_cases hhc : hd.cell = c
    · by_cases h : c = c0
      · have hup :
            (if hd.cell = c0 then { hd with value := some v, owner := some p } else hd) =
              { hd with value := some v, owner := some p } := if_pos (by rw [hhc, h])
        rw [hcons, hup]
        have l1 : blockAt ({ hd with value := some v, owner := some p } :: setBlock tl c0 v p) c
            = some { hd with value := some v, owner := some p } :=
          List.find?_cons_of_pos _ (by simp [hhc])
        have l2 : blockAt (hd :: tl) c = some hd :=
          List.find?_cons_of_pos _ (by simp [hhc])
        rw [l1, l2, if_pos h]
        rfl
      · have hh0 : ¬ hd.cell = c0 := fun hx => h (hhc ▸ hx)
        rw [hcons, if_neg hh0]
        have l1 : blockAt (hd :: setBlock tl c0 v p) c = some hd :=
          List.find?_cons_of_pos _ (by simp [hhc])
        have l2 : blockAt (hd :: tl) c = some hd :=
          List.find?_cons_of_pos _ (by simp [hhc])
        rw [l1, l2, if_neg h]
    · have hhd2 :
          ¬ ((if hd.cell = c0 then { hd with value := some v, owner := some p } else hd) :
              Block).cell = c := by
        by_cases h0 : hd.cell = c0
        · rw [if_pos h0]
          exact hhc
        · rw [if_neg h0]
          exact hhc
      have l1 : blockAt
          ((if hd.cell = c0 then { hd with value := some v, owner := some p } else hd) ::
            setBlock tl c0 v p) c = blockAt (setBlock tl c0 v p) c :=
        List.find?_cons_of_neg _ (by simpa using hhd2)
      have l2 : blockAt (hd :: tl) c = blockAt tl c :=
        List.find?_cons_of_neg _ (by simp [hhc])
      rw [hcons, l1, l2, ih]

theorem setBlock_cells (board : List Block) (c : Nat × Nat) (v : Nat) (p : Player) :
    (setBlock board c v p).map Block.cell = board.map Block.cell := by
  induction board with
  | nil => rfl
  | cons hd tl ih =>
    simp only [setBlock, List.map_cons] at *
    by_cases h : hd.cell = c
    · simp [h, ih]
    · simp [h, ih]

theorem blockAt_eq_some (board : List Block) (c : Nat × Nat) (b : Block)
    (h : blockAt board c = some b) : b ∈ board ∧ b.cell = c := by
  have h2 : board.find? (fun b2 => decide (b2.cell = c)) = some b := h
  have hp := List.find?_some h2
  exact ⟨List.mem_of_find?_eq_some h2, by simpa using hp⟩

theorem blockAt_exists (board : List Block) (c : Nat × Nat)
    (h : ∃ b ∈ board, b.cell = c) : ∃ b, blockAt board c = some b := by
  have : (board.find? fun b => decide (b.cell = c)).isSome := by
    rw [List.find?_isSome]
    obtain ⟨b, hb, hc⟩ := h
    exact ⟨b, hb, by simp [hc]⟩
  exact Option.isSome_iff_exists.mp this

/-- C8: a confirmed selection on a cell that is not eligible for the acting
player (the legality oracle returns `None`) changes nothing: the whole state
is unchanged and the engine stays in `Unselected`. -/
theorem illegal_selection_ignored (s : GameState) (c : Nat × Nat) (click : Bool)
    (h : largest_neighbor s.board c s.currentPlayer = none)
    (hph : s.phase = TurnState.Unselected) :
    unselected s (some c) click = s ∧
    (unselected s (some c) click).phase = TurnState.Unselected := by
  have he : unselected s (some c) click = s := by
    by_cases hg : ((unownedBlocks s.board).any fun b => decide (b.cell = c)) = true
    · simp [unselected, hg, h]
    · simp [unselected, hg]
  exact ⟨he, by rw [he, hph]⟩

theorem illegal_selection_ignored_witness :
    largest_neighbor initState.board (0, 1) initState.currentPlayer = none ∧
    unselected initState (some (0, 1)) true = initState :=
  ⟨by decide, (illegal_selection_ignored initState (0, 1) true (by decide) rfl).1⟩

/-- C1: on an unowned candidate cell, if the legality oracle returns
`Some v` then a confirmed selection records the pending value `v + 1` and
moves to `Committed`, and the subsequent commit writes value `v + 1` and the
acting player as owner into that cell; if the oracle returns `None`, the
step is the identity, so no commit is possible. The written value arises
from the oracle alone. -/
theorem move_value_determinism (s : GameState) (c : Nat × Nat) (v : Nat)
    (hun : ((unownedBlocks s.board).any fun b => decide (b.cell = c)) = true) :
    (largest_neighbor s.board c s.currentPlayer = some v →
      (unselected s (some c) true).phase = TurnState.Committed ∧
      (unselected s (some c) true).selected = some (c, v + 1) ∧
      ∃ b, blockAt (selection_committed (unselected s (some c) true)).board c = some b ∧
        b.value = some (v + 1) ∧ b.owner = some s.currentPlayer) ∧
    (largest_neighbor s.board c s.currentPlayer = none →
      ∀ click, unselected s (some c) click = s) := by
  constructor
  · intro hl
    have hsel : unselected s (some c) true =
        { s with selected := some (c, v + 1), phase := TurnState.Committed } := by
      simp [unselected, hun, hl]
    refine ⟨by rw [hsel], by rw [hsel], ?_⟩
    rw [hsel]
    have hex : ∃ b ∈ s.board, b.cell = c := by
      rw [List.any_eq_true] at hun
      obtain ⟨b, hb, hc⟩ := hun
      exact ⟨b, ((mem_unownedBlocks s.board b).mp hb).1, of_decide_eq_true hc⟩
    obtain ⟨b0, hb0⟩ := blockAt_exists s.board c hex
    refine ⟨{ b0 with value := some (v + 1), owner := some s.currentPlayer }, ?_, rfl, rfl⟩
    have hcommit :
        (selection_committed
          { s with selected := some (c, v + 1), phase := TurnState.Committed }).board =
          setBlock s.board c (v + 1) s.currentPlayer := by
      simp [selection_committed]
    rw [hcommit, blockAt_setBlock, if_pos rfl, hb0]
    rfl
  · intro hl click
    by_cases hg : ((unownedBlocks s.board).any fun b => decide (b.cell = c)) = true
    · simp [unselected, hg, hl]
    · simp [unselected, hg]

theorem move_value_determinism_witness :
    ((unownedBlocks initState.board).any fun b => decide (b.cell = (2, 3))) = true ∧
    ((unselected initState (some (2, 3)) true).phase = TurnState.Committed ∧
      (unselected initState (some (2, 3)) true).selected = some ((2, 3), 3 + 1) ∧
      ∃ b, blockAt (selection_committed (unselected initState (some (2, 3)) true)).board (2, 3) =
          some b ∧ b.value = some (3 + 1) ∧ b.owner = some initState.currentPlayer) :=
  ⟨by decide, (move_value_determinism initState (2, 3) 3 (by decide)).1 (by decide)⟩

theorem next_player_has_moves_iff (board : List Block) (q : Player) :
    next_player_has_moves board q = true ↔
      ∃ b ∈ board, b.owner = some q ∧
        ∃ n ∈ neighborCoords b.cell.1 b.cell.2, ∃ ub ∈ board, ub.cell = n ∧ ub.owner = none := by
  simp only [next_player_has_moves, List.any_eq_true, Bool.and_eq_true, decide_eq_true_eq]
  constructor
  · rintro ⟨b, hb, hbq, n, hn, ub, hub, hubn⟩
    exact ⟨b, ((mem_ownedBlocks board b).mp hb).1, hbq, n, hn,
      ub, ((mem_unownedBlocks board ub).mp hub).1, hubn, ((mem_unownedBlocks board ub).mp hub).2⟩
  · rintro ⟨b, hb, hbq, n, hn, ub, hub, hubn, hubo⟩
    exact ⟨b, (mem_ownedBlocks board b).mpr ⟨hb, by simp [hbq]⟩, hbq, n, hn,
      ub, (mem_unownedBlocks board ub).mpr ⟨hub, hubo⟩, hubn⟩

/-- C4: at `TurnEnd` with unowned cells remaining, if the other player owns
a block with an unowned neighbor, the turn passes to it and the phase
becomes `Unselected`; otherwise the same player keeps the turn and the phase
still becomes `Unselected`. -/
theorem turn_handoff (s : GameState)
    (hne : (unownedBlocks s.board).length ≠ 0) :
    ((∃ b ∈ s.board, b.owner = some (otherPlayer s.currentPlayer) ∧
        ∃ n ∈ neighborCoords b.cell.1 b.cell.2, ∃ ub ∈ s.board, ub.cell = n ∧ ub.owner = none) →
      (turn_end s).currentPlayer = otherPlayer s.currentPlayer ∧
      (turn_end s).phase = TurnState.Unselected) ∧
    ((¬ ∃ b ∈ s.board, b.owner = some (otherPlayer s.currentPlayer) ∧
        ∃ n ∈ neighborCoords b.cell.1 b.cell.2, ∃ ub ∈ s.board, ub.cell = n ∧ ub.owner = none) →
      (turn_end s).currentPlayer = s.currentPlayer ∧
      (turn_end s).phase = TurnState.Unselected) := by
  constructor
  · intro hmv
    have h1 : next_player_has_moves s.board (otherPlayer s.currentPlayer) = true :=
      (next_player_has_moves_iff s.board (otherPlayer s.currentPlayer)).mpr hmv
    constructor <;> simp [turn_end, hne, h1]
  · intro hmv
    have h1 : ¬ next_player_has_moves s.board (otherPlayer s.currentPlayer) = true := by
      intro hc
      exact hmv ((next_player_has_moves_iff s.board (otherPlayer s.currentPlayer)).mp hc)
    constructor <;> simp [turn_end, hne, h1]

theorem turn_handoff_witness :
    (unownedBlocks initState.board).length ≠ 0 ∧
    (turn_end initState).currentPlayer = otherPlayer initState.currentPlayer ∧
    (turn_end initState).phase = TurnState.Unselected :=
  ⟨by decide, (turn_handoff initState (by decide)).1 (by decide)⟩

theorem neighbor_symm_witness :
    (0 : Nat) < GRID_LENGTH ∧ (1 : Nat) < GRID_LENGTH ∧
    (((1, 1) : Nat × Nat) ∈ neighborCoords 0 0 ↔ ((0, 0) : Nat × Nat) ∈ neighborCoords 1 1) :=
  ⟨by decide, by decide,
    neighbor_symm (0, 0) (1, 1) (by decide) (by decide) (by decide) (by decide)⟩

theorem largest_neighbor_fold (c : Nat × Nat) (p : Player) :
    ∀ (board : List Block) (acc : Option Nat),
      (ownedBlocks board).foldl (largest_neighbor_step c p) acc =
        (specOwnedNeighborValues board c p).foldl optStep acc := by
  intro board
  induction board with
  | nil => intro acc; rfl
  | cons hd tl ih =>
    intro acc
    cases ho : hd.owner with
    | none =>
      have h1 : ownedBlocks (hd :: tl) = ownedBlocks tl := by
        simp [ownedBlocks, List.filter_cons, ho]
      have h2 : specOwnedNeighborValues (hd :: tl) c p = specOwnedNeighborValues tl c p := by
        simp [specOwnedNeighborValues, List.filterMap_cons, ho]
      rw [h1, h2]
      exact ih acc
    | some o =>
      have h1 : ownedBlocks (hd :: tl) = hd :: ownedBlocks tl := by
        simp [ownedBlocks, List.filter_cons, ho]
      rw [h1, List.foldl_cons]
      by_cases hcond : hd.cell ∈ neighborCoords c.1 c.2 ∧ o = p
      · cases hvv : hd.value with
        | some v =>
          have hstep : largest_neighbor_step c p acc hd = optStep acc v := by
            simp only [largest_neighbor_step, ho, hvv, if_pos hcond, optStep]
          have h2 : specOwnedNeighborValues (hd :: tl) c p =
              v :: specOwnedNeighborValues tl c p := by
            have hop : hd.owner = some p := by rw [ho, hcond.2]
            simp [specOwnedNeighborValues, List.filterMap_cons, hop, hcond.1, hvv]
          rw [hstep, h2, List.foldl_cons]
          exact ih (optStep acc v)
        | none =>
          have hstep : largest_neighbor_step c p acc hd = acc := by
            simp only [largest_neighbor_step, ho, hvv, if_pos hcond]
          have h2 : specOwnedNeighborValues (hd :: tl) c p = specOwnedNeighborValues tl c p := by
            simp [specOwnedNeighborValues, List.filterMap_cons, hvv]
          rw [hstep, h2]
          exact ih acc
      · have hstep : largest_neighbor_step c p acc hd = acc := by
          simp only [largest_neighbor_step, ho, if_neg hcond]
        have hnc : ¬ (hd.owner = some p ∧ hd.cell ∈ neighborCoords c.1 c.2) := by
          rintro ⟨hx1, hx2⟩
          rw [ho] at hx1
          exact hcond ⟨hx2, Option.some.inj hx1⟩
        have h2 : specOwnedNeighborValues (hd :: tl) c p = specOwnedNeighborValues tl c p := by
          simp [specOwnedNeighborValues, List.filterMap_cons, if_neg hnc]
        rw [hstep, h2]
        exact ih acc

theorem foldl_optStep_ne_none (l : List Nat) :
    ∀ m : Nat, l.foldl optStep (some m) ≠ none := by
  induction l with
  | nil => intro m h; cases h
  | cons x l ih =>
    intro m
    rw [List.foldl_cons]
    exact ih (max x m)

theorem foldl_optStep_none_iff (l : List Nat) :
    l.foldl optStep none = none ↔ l = [] := by
  cases l with
  | nil => simp
  | cons x l =>
    rw [List.foldl_cons]
    constructor
    · intro h
      exact absurd h (foldl_optStep_ne_none l x)
    · intro h
      cases h

theorem foldl_optStep_some (l : List Nat) :
    ∀ (acc : Option Nat) (v : Nat), l.foldl optStep acc = some v →
      (v ∈ l ∨ acc = some v) ∧ (∀ w ∈ l, w ≤ v) ∧ (∀ a, acc = some a → a ≤ v) := by
  induction l with
  | nil =>
    intro acc v h
    refine ⟨Or.inr h, by simp, ?_⟩
    intro a ha
    rw [ha] at h
    exact le_of_eq (Option.some.inj h)
  | cons x l ih =>
    intro acc v h
    rw [List.foldl_cons] at h
    obtain ⟨h1, h2, h3⟩ := ih (optStep acc x) v h
    have hacc : ∀ a, optStep acc x = some a → x ≤ a ∧ ∀ a0, acc = some a0 → a0 ≤ a := by
      intro a ha
      cases acc with
      | none =>
        have : x = a := Option.some.inj ha
        exact ⟨le_of_eq this, fun a0 h0 => by cases h0⟩
      | some a0 =>
        have : max x a0 = a := Option.some.inj ha
        refine ⟨by omega, ?_⟩
        intro a1 h1x
        have : a0 = a1 := Option.some.inj h1x
        omega
    have hx : x ≤ v := by
      cases hs : optStep acc x with
      | none => cases acc <;> cases hs
      | some m =>
        have := (hacc m hs).1
        have := h3 m hs
        omega
    refine ⟨?_, ?_, ?_⟩
    · rcases h1 with h1 | h1
      · exact Or.inl (List.mem_cons_of_mem x h1)
      · cases acc with
        | none =>
          have : x = v := Option.some.inj h1
          exact Or.inl (this ▸ List.mem_cons_self x l)
        | some a0 =>
          have hm : max x a0 = v := Option.some.inj h1
          rcases Nat.le_total x a0 with hle | hle
          · have : a0 = v := by omega
            exact Or.inr (by rw [this])
          · have : x = v := by omega
            exact Or.inl (this ▸ List.mem_cons_self x l)
    · intro w hw
      rcases List.mem_cons.mp hw with rfl | hw2
      · exact hx
      · exact h2 w hw2
    · intro a ha
      cases hs : optStep acc x with
      | none => cases acc <;> cases hs
      | some m =>
        have hm := h3 m hs
        have := (hacc m hs).2 a ha
        omega

/-- C2: the legality oracle `largest_neighbor` returns `None` exactly when
the player owns no neighbor of the cell (on a board where every owned block
carries a value, as the engine maintains), and when it returns `Some v`, `v`
is the maximum of the values of the cell's neighbors owned by the player;
moreover a confirmed selection on an unowned candidate cell transitions to
`Committed` exactly when the oracle returns `Some`. -/
theorem largest_neighbor_correct (board : List Block) (c : Nat × Nat) (p : Player)
    (hinv : ∀ b ∈ board, b.owner.isSome → b.value.isSome) :
    (largest_neighbor board c p = none ↔
      ∀ b ∈ board, ¬ (b.owner = some p ∧ b.cell ∈ neighborCoords c.1 c.2)) ∧
    (∀ v, largest_neighbor board c p = some v →
      v ∈ specOwnedNeighborValues board c p ∧
      ∀ w ∈ specOwnedNeighborValues board c p, w ≤ v) ∧
    (∀ s : GameState, s.board = board → s.currentPlayer = p →
      s.phase = TurnState.Unselected →
      ((unownedBlocks board).any fun b => decide (b.cell = c)) = true →
      (((unselected s (some c) true).phase = TurnState.Committed) ↔
        (largest_neighbor board c p).isSome)) := by
  have hbridge : largest_neighbor board c p =
      (specOwnedNeighborValues board c p).foldl optStep none :=
    largest_neighbor_fold c p board none
  refine ⟨?_, ?_, ?_⟩
  · rw [hbridge, foldl_optStep_none_iff]
    constructor
    · intro hnil b hb hcond
      have hnil2 : ∀ b2 ∈ board,
          (if b2.owner = some p ∧ b2.cell ∈ neighborCoords c.1 c.2 then b2.value else none) =
            none :=
        List.filterMap_eq_nil_iff.mp hnil
      have hent := hnil2 b hb
      rw [if_pos hcond] at hent
      have hv := hinv b hb (by rw [hcond.1]; rfl)
      rw [hent] at hv
      cases hv
    · intro hall
      have hnil2 : ∀ b ∈ board,
          (if b.owner = some p ∧ b.cell ∈ neighborCoords c.1 c.2 then b.value else none) =
            none := by
        intro b hb
        rw [if_neg (hall b hb)]
      exact List.filterMap_eq_nil_iff.mpr hnil2
  · intro v hv
    rw [hbridge] at hv
    obtain ⟨h1, h2, -⟩ := foldl_optStep_some _ none v hv
    rcases h1 with h1 | h1
    · exact ⟨h1, h2⟩
    · cases h1
  · intro s hbeq hpeq hph hguard
    subst hbeq
    subst hpeq
    cases hl : largest_neighbor s.board c s.currentPlayer with
    | some v =>
      have hsel : unselected s (some c) true =
          { s with selected := some (c, v + 1), phase := TurnState.Committed } := by
        simp [unselected, hguard, hl]
      rw [hsel]
      simp
    | none =>
      have hsel : unselected s (some c) true = s := by
        simp [unselected, hguard, hl]
      rw [hsel, hph]
      simp

theorem largest_neighbor_correct_witness :
    (3 : Nat) ∈ specOwnedNeighborValues initBoard (2, 3) Player.p2 :=
  (((largest_neighbor_correct initBoard (2, 3) Player.p2 (by decide)).2.1) 3 (by decide)).1

theorem turn_end_terminal (s : GameState) (hempty : unownedBlocks s.board = []) :
    turn_end s =
      { s with winner := max_by_key_last (playerList.map fun q => (q, s.score q)) } := by
  simp [turn_end, hempty]

/-- C3: `turn_end` leaves the engine in `TurnEnd` with a declared winner
exactly when no unowned cell remains; the declared winner is the player with
the strictly greatest score; and from the terminal state the only possible
step reproduces it unchanged, so no further transitions occur. -/
theorem game_termination (s : GameState) (hph : s.phase = TurnState.TurnEnd) :
    (((turn_end s).phase = TurnState.TurnEnd ∧ (turn_end s).winner.isSome) ↔
      unownedBlocks s.board = []) ∧
    (∀ p, unownedBlocks s.board = [] → s.score (otherPlayer p) < s.score p →
      (turn_end s).winner = some (p, s.score p)) ∧
    (unownedBlocks s.board = [] → ∀ t, Step (turn_end s) t → t = turn_end s) := by
  refine ⟨⟨?_, ?_⟩, ?_, ?_⟩
  · rintro ⟨hphase, hwin⟩
    by_contra hne
    have hlen : (unownedBlocks s.board).length ≠ 0 := by
      intro h0
      exact hne (List.length_eq_zero.mp h0)
    have hun : (turn_end s).phase = TurnState.Unselected := by
      by_cases h1 : next_player_has_moves s.board (otherPlayer s.currentPlayer) = true <;>
        simp [turn_end, hlen, h1]
    rw [hun] at hphase
    cases hphase
  · intro hempty
    rw [turn_end_terminal s hempty]
    refine ⟨hph, ?_⟩
    show (max_by_key_last (playerList.map fun q => (q, s.score q))).isSome = true
    simp only [playerList, List.map_cons, List.map_nil, max_by_key_last, List.foldl_cons,
      List.foldl_nil]
    by_cases h : s.score Player.p1 ≤ s.score Player.p2 <;> simp [h]
  · intro p hempty hlt
    rw [turn_end_terminal s hempty]
    show max_by_key_last (playerList.map fun q => (q, s.score q)) = some (p, s.score p)
    simp only [playerList, List.map_cons, List.map_nil, max_by_key_last, List.foldl_cons,
      List.foldl_nil]
    cases p with
    | p1 =>
      have hlt2 : s.score Player.p2 < s.score Player.p1 := hlt
      have hn : ¬ s.score Player.p1 ≤ s.score Player.p2 := by omega
      simp [hn]
    | p2 =>
      have hlt2 : s.score Player.p1 < s.score Player.p2 := hlt
      have hy : s.score Player.p1 ≤ s.score Player.p2 := by omega
      simp [hy]
  · intro hempty t hstep
    have hterm := turn_end_terminal s hempty
    have hphase2 : (turn_end s).phase = TurnState.TurnEnd := by
      rw [hterm]
      exact hph
    cases hstep with
    | unsel collided click hph2 =>
      rw [hphase2] at hph2
      cases hph2
    | commit hph2 =>
      rw [hphase2] at hph2
      cases hph2
    | turnEnd hph2 =>
      have hempty2 : unownedBlocks (turn_end s).board = [] := by
        rw [hterm]
        exact hempty
      rw [turn_end_terminal _ hempty2, hterm]

theorem game_termination_witness :
    fullState.phase = TurnState.TurnEnd ∧
    (turn_end fullState).winner = some (Player.p1, 2) :=
  ⟨rfl, (game_termination fullState rfl).2.1 Player.p1 (by decide) (by decide)⟩

theorem setBlock_cons (hd : Block) (tl : List Block) (c : Nat × Nat) (v : Nat) (p : Player) :
    setBlock (hd :: tl) c v p =
      (if hd.cell = c then { hd with value := some v, owner := some p } else hd) ::
        setBlock tl c v p := rfl

theorem setBlock_id (board : List Block) (c : Nat × Nat) (v : Nat) (p : Player)
    (h : ∀ b ∈ board, b.cell ≠ c) : setBlock board c v p = board := by
  induction board with
  | nil => rfl
  | cons hd tl ih =>
    rw [setBlock_cons, if_neg (h hd (List.mem_cons_self hd tl)),
      ih (fun b hb => h b (List.mem_cons_of_mem hd hb))]

theorem foldl_max_acc (l : List Nat) : ∀ a : Nat, l.foldl max a = max a (l.foldl max 0) := by
  induction l with
  | nil => intro a; simp
  | cons x l ih =>
    intro a
    rw [List.foldl_cons, List.foldl_cons, ih (max a x), ih (max 0 x)]
    omega

theorem maxValue_cons (x : Nat) (l : List Nat) : maxValue (x :: l) = max x (maxValue l) := by
  simp only [maxValue, List.foldl_cons]
  rw [foldl_max_acc l (max 0 x)]
  omega

theorem ownedValues_cons_skip (hd : Block) (tl : List Block) (p : Player)
    (h : (if hd.owner = some p then hd.value else none) = none) :
    ownedValues (hd :: tl) p = ownedValues tl p := by
  simp only [ownedValues, List.filterMap_cons, h]

theorem ownedValues_cons_keep (hd : Block) (tl : List Block) (p : Player) (w : Nat)
    (h : (if hd.owner = some p then hd.value else none) = some w) :
    ownedValues (hd :: tl) p = w :: ownedValues tl p := by
  simp only [ownedValues, List.filterMap_cons, h]

theorem ownedValues_setBlock_ne (board : List Block) (c : Nat × Nat) (v : Nat)
    (p q : Player) (hqp : q ≠ p)
    (hun : ∀ b ∈ board, b.cell = c → b.owner = none) :
    ownedValues (setBlock board c v p) q = ownedValues board q := by
  induction board with
  | nil => rfl
  | cons hd tl ih =>
    have htl := ih (fun b hb => hun b (List.mem_cons_of_mem hd hb))
    rw [setBlock_cons]
    by_cases hc : hd.cell = c
    · have ho : hd.owner = none := hun hd (List.mem_cons_self hd tl) hc
      rw [if_pos hc]
      have e1 : (if ({ hd with value := some v, owner := some p } : Block).owner = some q
          then ({ hd with value := some v, owner := some p } : Block).value else none) =
            none := by
        rw [if_neg]
        intro hx
        exact hqp (Option.some.inj hx).symm
      have e2 : (if hd.owner = some q then hd.value else none) = none := by
        rw [ho]
        simp
      rw [ownedValues_cons_skip _ _ q e1, ownedValues_cons_skip hd tl q e2]
      exact htl
    · rw [if_neg hc]
      cases he : (if hd.owner = some q then hd.value else none) with
      | none =>
        rw [ownedValues_cons_skip _ _ q he, ownedValues_cons_skip hd tl q he]
        exact htl
      | some w =>
        rw [ownedValues_cons_keep _ _ q w he, ownedValues_cons_keep hd tl q w he, htl]

theorem maxValue_ownedValues_setBlock (c : Nat × Nat) (v : Nat) (p : Player) :
    ∀ board : List Block,
      (∀ b ∈ board, b.cell = c → b.owner = none) →
      (∃ b ∈ board, b.cell = c) →
      maxValue (ownedValues (setBlock board c v p) p) =
        max (maxValue (ownedValues board p)) v := by
  intro board
  induction board with
  | nil =>
    intro _ hex
    simp at hex
  | cons hd tl ih =>
    intro hun hex
    have htlun : ∀ b ∈ tl, b.cell = c → b.owner = none :=
      fun b hb => hun b (List.mem_cons_of_mem hd hb)
    rw [setBlock_cons]
    by_cases hc : hd.cell = c
    · have ho : hd.owner = none := hun hd (List.mem_cons_self hd tl) hc
      rw [if_pos hc]
      have e1 : (if ({ hd with value := some v, owner := some p } : Block).owner = some p
          then ({ hd with value := some v, owner := some p } : Block).value else none) =
            some v := by
        rw [if_pos rfl]
      have e2 : (if hd.owner = some p then hd.value else none) = none := by
        rw [ho]
        simp
      rw [ownedValues_cons_keep _ _ p v e1, ownedValues_cons_skip hd tl p e2, maxValue_cons]
      by_cases hex2 : ∃ b ∈ tl, b.cell = c
      · rw [ih htlun hex2]
        omega
      · have hnone : ∀ b ∈ tl, b.cell ≠ c := by
          intro b hb hbc
          exact hex2 ⟨b, hb, hbc⟩
        rw [setBlock_id tl c v p hnone]
        omega
    · rw [if_neg hc]
      have hex2 : ∃ b ∈ tl, b.cell = c := by
        obtain ⟨b, hb, hbc⟩ := hex
        rcases List.mem_cons.mp hb with rfl | hb2
        · exact absurd hbc hc
        · exact ⟨b, hb2, hbc⟩
      cases he : (if hd.owner = some p then hd.value else none) with
      | none =>
        rw [ownedValues_cons_skip _ _ p he, ownedValues_cons_skip hd tl p he]
        exact ih htlun hex2
      | some w =>
        rw [ownedValues_cons_keep _ _ p w he, ownedValues_cons_keep hd tl p w he,
          maxValue_cons, maxValue_cons, ih htlun hex2]
        omega

theorem goodState_init : GoodState initState := by
  refine ⟨by decide, ?_, ?_⟩
  · intro c v h
    cases h
  · intro p
    cases p <;> decide

theorem goodState_step {s t : GameState} (hg : GoodState s) (hst : Step s t) : GoodState t := by
  cases hst with
  | unsel collided click hph =>
    rcases unselected_cases s collided click with h | ⟨c, v, hco, hcl, hguard, hl, h⟩
    · rw [h]
      exact hg
    · rw [h]
      obtain ⟨hnd, hsel, hscore⟩ := hg
      refine ⟨hnd, ?_, hscore⟩
      intro c0 v0 hs0
      have h1 : ((c, v + 1) : (Nat × Nat) × Nat) = (c0, v0) := Option.some.inj hs0
      have hc0 : c0 = c := (congrArg Prod.fst h1).symm
      rw [List.any_eq_true] at hguard
      obtain ⟨b, hb, hcell⟩ := hguard
      have hb2 := (mem_unownedBlocks s.board b).mp hb
      exact ⟨b, hb2.1, by rw [hc0]; exact of_decide_eq_true hcell, hb2.2⟩
  | commit hph =>
    obtain ⟨hnd, hsel, hscore⟩ := hg
    cases hselv : s.selected with
    | none =>
      have h : selection_committed s = s := by simp [selection_committed, hselv]
      rw [h]
      exact ⟨hnd, hsel, hscore⟩
    | some cv =>
      obtain ⟨c, v⟩ := cv
      have hcm : selection_committed s =
          { s with
            board := setBlock s.board c v s.currentPlayer
            score := fun q => if q = s.currentPlayer then max (s.score q) v else s.score q
            selected := none
            phase := TurnState.TurnEnd } := by
        simp [selection_committed, hselv]
      rw [hcm]
      obtain ⟨b0, hb0m, hb0c, hb0o⟩ := hsel c v hselv
      have hun : ∀ b ∈ s.board, b.cell = c → b.owner = none := by
        intro b hb hbc
        have heq : b = b0 :=
          List.inj_on_of_nodup_map hnd hb hb0m (by rw [hbc, hb0c])
        rw [heq]
        exact hb0o
      refine ⟨?_, ?_, ?_⟩
      · show ((setBlock s.board c v s.currentPlayer).map Block.cell).Nodup
        rw [setBlock_cells]
        exact hnd
      · intro c0 v0 h0
        cases h0
      · intro q
        show (if q = s.currentPlayer then max (s.score q) v else s.score q) =
          maxValue (ownedValues (setBlock s.board c v s.currentPlayer) q)
        by_cases hq : q = s.currentPlayer
        · rw [if_pos hq, hq,
            maxValue_ownedValues_setBlock c v s.currentPlayer s.board hun ⟨b0, hb0m, hb0c⟩,
            ← hscore s.currentPlayer]
        · rw [if_neg hq, ownedValues_setBlock_ne s.board c v s.currentPlayer q hq hun]
          exact hscore q
  | turnEnd hph =>
    obtain ⟨h1, h2, h3⟩ := turn_end_preserves s
    obtain ⟨hnd, hsel, hscore⟩ := hg
    refine ⟨by rw [h1]; exact hnd, ?_, ?_⟩
    · intro c v hs0
      rw [h3] at hs0
      rw [h1]
      exact hsel c v hs0
    · intro q
      rw [h1, h2]
      exact hscore q

theorem reachable_goodState {s : GameState} (hr : Reachable s) : GoodState s := by
  induction hr with
  | init => exact goodState_init
  | step hr2 hst ih => exact goodState_step ih hst

/-- C7: claims are permanent: in any reachable state, a step of the engine
changes neither the owner nor the value of an owned cell, and the successor
state never carries a pending selection for that cell, so no second claim of
it can go through. -/
theorem claims_permanent (s t : GameState) (c : Nat × Nat) (b : Block)
    (hr : Reachable s) (hst : Step s t)
    (hb : blockAt s.board c = some b) (hbo : b.owner.isSome) :
    blockAt t.board c = some b ∧ ∀ v, t.selected ≠ some (c, v) := by
  have hg := reachable_goodState hr
  have hgt := reachable_goodState (Reachable.step hr hst)
  have hmain : blockAt t.board c = some b := by
    cases hst with
    | unsel collided click hph =>
      rw [(unselected_preserves s collided click).1]
      exact hb
    | commit hph =>
      cases hselv : s.selected with
      | none =>
        have h : selection_committed s = s := by simp [selection_committed, hselv]
        rw [h]
        exact hb
      | some cv =>
        obtain ⟨c0, v0⟩ := cv
        have hboard : (selection_committed s).board =
            setBlock s.board c0 v0 s.currentPlayer := by
          simp [selection_committed, hselv]
        rw [hboard, blockAt_setBlock]
        have hcc0 : c ≠ c0 := by
          intro hx
          obtain ⟨b1, hb1m, hb1c, hb1o⟩ := hg.2.1 c0 v0 hselv
          obtain ⟨hbm, hbc⟩ := blockAt_eq_some s.board c b hb
          have hbb1 : b = b1 :=
            List.inj_on_of_nodup_map hg.1 hbm hb1m (by rw [hbc, hb1c, hx])
          rw [hbb1, hb1o] at hbo
          cases hbo
        rw [if_neg hcc0]
        exact hb
    | turnEnd hph =>
      rw [(turn_end_preserves s).1]
      exact hb
  refine ⟨hmain, ?_⟩
  intro v hselt
  obtain ⟨b1, hb1m, hb1c, hb1o⟩ := hgt.2.1 c v hselt
  obtain ⟨hbm, hbc⟩ := blockAt_eq_some t.board c b hmain
  have hbb1 : b = b1 := List.inj_on_of_nodup_map hgt.1 hbm hb1m (by rw [hbc, hb1c])
  rw [hbb1, hb1o] at hbo
  cases hbo

theorem claims_permanent_witness :
    blockAt (unselected initState none false).board (0, 0) =
      some { cell := (0, 0), value := some 1, owner := some Player.p1 } :=
  (claims_permanent initState (unselected initState none false) (0, 0)
    { cell := (0, 0), value := some 1, owner := some Player.p1 }
    Reachable.init (Step.unsel initState none false rfl) (by decide) (by decide)).1

/-- C6: along any engine step from a reachable state, each player's score is
non-decreasing and, both before and after the step, equals the maximum value
among the blocks that player owns; a commit sets the acting player's score
to the maximum of the old score and the claimed value, which leaves it
unchanged when the claimed value does not exceed it. -/
theorem score_monotone_and_max (s t : GameState) (p : Player)
    (hr : Reachable s) (hst : Step s t) :
    s.score p ≤ t.score p ∧
    s.score p = maxValue (ownedValues s.board p) ∧
    t.score p = maxValue (ownedValues t.board p) ∧
    (∀ c v, s.selected = some (c, v) →
      (selection_committed s).score s.currentPlayer = max (s.score s.currentPlayer) v ∧
      (v ≤ s.score s.currentPlayer →
        (selection_committed s).score s.currentPlayer = s.score s.currentPlayer)) := by
  have hg := reachable_goodState hr
  have hgt := reachable_goodState (Reachable.step hr hst)
  refine ⟨?_, hg.2.2 p, hgt.2.2 p, ?_⟩
  · cases hst with
    | unsel collided click hph =>
      rw [(unselected_preserves s collided click).2.1]
    | commit hph =>
      cases hselv : s.selected with
      | none =>
        have h : selection_committed s = s := by simp [selection_committed, hselv]
        rw [h]
      | some cv =>
        have hscore2 : (selection_committed s).score p =
            if p = s.currentPlayer then max (s.score p) cv.2 else s.score p := by
          simp [selection_committed, hselv]
        rw [hscore2]
        by_cases hq : p = s.currentPlayer
        · rw [if_pos hq]
          exact Nat.le_max_left _ _
        · rw [if_neg hq]
    | turnEnd hph =>
      rw [(turn_end_preserves s).2.1]
  · intro c v hselv
    have hsc : (selection_committed s).score s.currentPlayer =
        max (s.score s.currentPlayer) v := by
      simp [selection_committed, hselv]
    refine ⟨hsc, fun hle => ?_⟩
    rw [hsc]
    exact Nat.max_eq_left hle

theorem score_monotone_and_max_witness :
    initState.score Player.p1 ≤ (unselected initState none false).score Player.p1 ∧
    initState.score Player.p1 = maxValue (ownedValues initState.board Player.p1) :=
  ⟨(score_monotone_and_max initState (unselected initState none false) Player.p1
      Reachable.init (Step.unsel initState none false rfl)).1,
    (score_monotone_and_max initState (unselected initState none false) Player.p1
      Reachable.init (Step.unsel initState none false rfl)).2.1⟩
